import Mathlib

/-!
# TimePlanner — formal model of the timeline editor core

A shallow embedding of the core of `main.py`:

* `Segment` models `TimeSection` (`start`, `duration` in minutes, plus the
  text fields the verified algorithms read).
* The drag-release resolution algorithm of `BarWidget.mouseReleaseEvent`
  (pixel arithmetic modelled over `ℚ`, matching Python float formulas
  `(duration / total_minutes) * bar_width`).
* The start-time re-derivation pass shared by release / edit / delete.
* The timeline mutations `add_section`, `edit_section`, `delete_section`
  and the drag-release, packaged as a `Mutation` step function.
* The tools-merge algorithm `_combine_tools_intelligently`.
* The drag-state frame behaviour of `BarWidget.mouseMoveEvent`.
-/

namespace TimePlanner

/-- Models `TimeSection` (main.py:471): `start` and `duration` are integer
minutes; `name` and `tools` are the text fields used by the verified
algorithms.  `color`, `organisation`, `explanation` play no role in any
claim and are omitted. -/
structure Segment where
  start : Nat
  duration : Nat
  name : String
  tools : String
deriving DecidableEq, Repr

/-- The identity of a segment apart from its (derived) `start` field. -/
def keyOf (s : Segment) : String × Nat × String :=
  (s.name, s.duration, s.tools)

/-! ## Drag-release resolution (main.py:711-745)

Pixel arithmetic is over `ℚ`: the Python source computes
`seg_len = (s.duration/self.total_minutes)*bar_width` with float division;
over the rationals the same formula is exact. -/

/-- Pixel width of a segment: `(s.duration / total_minutes) * bar_width`
(main.py:725). -/
def segWidth (totalMinutes barWidth : ℚ) (s : Segment) : ℚ :=
  ((s.duration : ℚ) / totalMinutes) * barWidth

/-- The walk of main.py:722-729: scan the sections from index `i`,
skipping the dragged index, accumulating each non-dragged segment's pixel
width into `total`; return `some i` at the first position with
`rel_x < total + seg_len/2`, else `none` (the for-else fallback). -/
def resolveGo (totalMinutes barWidth relX : ℚ) (dragIdx : Nat) :
    Nat → ℚ → List Segment → Option Nat
  | _, _, [] => none
  | i, total, s :: rest =>
    if i = dragIdx then
      resolveGo totalMinutes barWidth relX dragIdx (i + 1) total rest
    else
      let segLen := segWidth totalMinutes barWidth s
      if relX < total + segLen / 2 then some i
      else resolveGo totalMinutes barWidth relX dragIdx (i + 1) (total + segLen) rest

/-- `new_pos` of main.py:718-731: the walk's first hit, or
`len(self.sections) - 1` when the loop finishes without a break. -/
def resolveNewPos (sections : List Segment) (dragIdx : Nat)
    (relX totalMinutes barWidth : ℚ) : Nat :=
  match resolveGo totalMinutes barWidth relX dragIdx 0 0 sections with
  | some i => i
  | none => sections.length - 1

/-- `list.pop(i)` (main.py:733): remove the element at index `i`. -/
def eraseAt : Nat → List Segment → List Segment
  | _, [] => []
  | 0, _ :: rest => rest
  | n + 1, s :: rest => s :: eraseAt n rest

/-- `list.insert(i, x)` (main.py:734): insert `x` before index `i`,
appending when `i` is past the end, as Python does. -/
def insertAt : Nat → Segment → List Segment → List Segment
  | 0, a, l => a :: l
  | _ + 1, a, [] => [a]
  | n + 1, a, s :: rest => s :: insertAt n a rest

/-- main.py:732-734: move the dragged segment to `newPos` when it differs
from `dragIdx`, else leave the list untouched. -/
def applyMove (sections : List Segment) (dragIdx newPos : Nat) : List Segment :=
  if newPos = dragIdx then sections
  else
    match sections.get? dragIdx with
    | none => sections
    | some seg => insertAt newPos seg (eraseAt dragIdx sections)

/-- The re-derivation pass (main.py:736-739, 819-822, 963-966, 982-985):
`cur = 0; for s in sections: s.start = cur; cur += s.duration`, here with
the running offset `cur` explicit. -/
def rederiveFrom (cur : Nat) : List Segment → List Segment
  | [] => []
  | s :: rest => { s with start := cur } :: rederiveFrom (cur + s.duration) rest

/-- Re-derivation from the timeline origin. -/
def rederive (sections : List Segment) : List Segment :=
  rederiveFrom 0 sections

/-- The structural effect of `BarWidget.mouseReleaseEvent` (main.py:711-745)
on the section list: resolve the insertion index from the release point,
move if it differs from the dragged index, then re-derive every start. -/
def mouseRelease (sections : List Segment) (dragIdx : Nat)
    (relX totalMinutes barWidth : ℚ) : List Segment :=
  rederive (applyMove sections dragIdx (resolveNewPos sections dragIdx relX totalMinutes barWidth))

/-! ## Timeline and its mutations -/

/-- The timeline: total duration in minutes plus the ordered section list
(`TimePlannerApp.total_minutes` / `BarWidget.sections`). -/
structure Timeline where
  totalMinutes : Nat
  sections : List Segment
deriving DecidableEq, Repr

/-- Sum of all segment durations. -/
def sumDur (l : List Segment) : Nat :=
  (l.map Segment.duration).sum

/-- The start computed for an appended section (main.py:1404-1409):
`last.start + last.duration`, or `0` for an empty timeline. -/
def appendStart (l : List Segment) : Nat :=
  match l.getLast? with
  | none => 0
  | some last => last.start + last.duration

/-- `TimePlannerApp.add_section` (main.py:1403-1432).  The append is
rejected (timeline unchanged) when no time remains
(`max_duration <= 0`, main.py:1411), when the requested duration is
outside the dialog's allowed range `[1, max_duration]`
(`QSpinBox.setRange(1, max_duration)`, main.py:338), or when the name is
empty (main.py:1418). -/
def addSection (tl : Timeline) (name tools : String) (d : Nat) : Timeline :=
  let start := appendStart tl.sections
  let maxD := tl.totalMinutes - start
  if maxD = 0 then tl
  else if 1 ≤ d ∧ d ≤ maxD ∧ name ≠ "" then
    { tl with sections := tl.sections ++ [⟨start, d, name, tools⟩] }
  else tl

/-- Replace the element at index `i` by `f` of it, as the in-place field
assignment of main.py:975-979 does. -/
def updateAt : Nat → (Segment → Segment) → List Segment → List Segment
  | _, _, [] => []
  | 0, f, s :: rest => f s :: rest
  | n + 1, f, s :: rest => s :: updateAt n f rest

/-- `BarWidget.edit_section` + `TimePlannerApp.edit_section_dialog`
(main.py:784-801, 955-986): out-of-range index is a no-op (main.py:786);
the dialog restricts the duration to `[1, remaining]` where
`remaining = total_minutes - sum of the other durations` (main.py:792,
399) and rejects an empty name (main.py:971); on success the fields are
updated in place and every start is re-derived (main.py:982-985). -/
def editSection (tl : Timeline) (idx : Nat) (name tools : String) (d : Nat) : Timeline :=
  if idx < tl.sections.length then
    let remaining := tl.totalMinutes - sumDur (eraseAt idx tl.sections)
    if 1 ≤ d ∧ d ≤ remaining ∧ name ≠ "" then
      { tl with sections :=
          rederive (updateAt idx
            (fun s => { s with name := name, duration := d, tools := tools }) tl.sections) }
    else tl
  else tl

/-- `BarWidget.delete_section` (main.py:803-823): out-of-range index is a
no-op; otherwise splice out the section and re-derive every start. -/
def deleteSection (tl : Timeline) (idx : Nat) : Timeline :=
  if idx < tl.sections.length then
    { tl with sections := rederive (eraseAt idx tl.sections) }
  else tl

/-- A drag release as a timeline mutation: `mouseReleaseEvent` acts only
while a drag of a valid index is active. -/
def dragReleaseTl (tl : Timeline) (dragIdx : Nat) (relX barWidth : ℚ) : Timeline :=
  if dragIdx < tl.sections.length then
    { tl with sections :=
        mouseRelease tl.sections dragIdx relX (tl.totalMinutes : ℚ) barWidth }
  else tl

/-- The editor's mutations: append, reorder-by-drag, edit, delete. -/
inductive Mutation where
  | append (name tools : String) (d : Nat)
  | dragRelease (dragIdx : Nat) (relX barWidth : ℚ)
  | edit (idx : Nat) (name tools : String) (d : Nat)
  | delete (idx : Nat)
deriving DecidableEq

/-- One mutation step. -/
def applyMutation (tl : Timeline) : Mutation → Timeline
  | .append name tools d => addSection tl name tools d
  | .dragRelease i relX bw => dragReleaseTl tl i relX bw
  | .edit i name tools d => editSection tl i name tools d
  | .delete i => deleteSection tl i

/-- Run a sequence of mutations left to right. -/
def runMutations (tl : Timeline) (ops : List Mutation) : Timeline :=
  ops.foldl applyMutation tl

/-- A freshly created timeline: chosen total duration, empty sequence. -/
def initTimeline (total : Nat) : Timeline :=
  ⟨total, []⟩

/-! ## Contiguity -/

/-- The sections are contiguous starting at offset `c`: each segment
starts where the previous one ends. -/
def ContiguousFrom : Nat → List Segment → Prop
  | _, [] => True
  | c, s :: rest => s.start = c ∧ ContiguousFrom (s.start + s.duration) rest

instance instDecContiguousFrom : (c : Nat) → (l : List Segment) → Decidable (ContiguousFrom c l)
  | _, [] => isTrue trivial
  | _, s :: rest =>
    @instDecidableAnd _ _ _ (instDecContiguousFrom (s.start + s.duration) rest)

/-- The contiguity invariant exactly as the spec words it:
`segments[0].start == 0` and
`segments[i+1].start == segments[i].start + segments[i].duration`. -/
def ContiguousSpec (l : List Segment) : Prop :=
  (∀ s, l.head? = some s → s.start = 0) ∧
  (∀ i a b, l.get? i = some a → l.get? (i + 1) = some b →
    b.start = a.start + a.duration)

/-- The timeline invariants maintained by every mutation: contiguity from
the origin and total scheduled time within the chosen total. -/
def Inv (tl : Timeline) : Prop :=
  ContiguousFrom 0 tl.sections ∧ sumDur tl.sections ≤ tl.totalMinutes

/-! ## The walk's running totals (for stating the fallback property) -/

/-- `walkTotalAux T bw dragIdx i₀ l j` is the walk's running total after
processing the first `j` elements of `l`, where `l` starts at absolute
index `i₀`: widths of non-dragged segments accumulate, the dragged index
contributes nothing (main.py:722-729). -/
def walkTotalAux (T bw : ℚ) (dragIdx i₀ : Nat) : List Segment → Nat → ℚ
  | _, 0 => 0
  | [], _ + 1 => 0
  | s :: rest, j + 1 =>
    (if i₀ = dragIdx then 0 else segWidth T bw s) +
      walkTotalAux T bw dragIdx (i₀ + 1) rest j

/-- `running_total_before_i`: the accumulated width of the non-dragged
segments strictly before index `i` in the walk of main.py:720-729. -/
def walkTotal (T bw : ℚ) (dragIdx : Nat) (l : List Segment) (i : Nat) : ℚ :=
  walkTotalAux T bw dragIdx 0 l i

/-! ## Drag-state frame model (`BarWidget.mouseMoveEvent`, main.py:677-709) -/

/-- The mutable widget fields touched by the drag state machine:
`sections`, `_drag_idx`, `_drag_section`, `_drag_offset`, `_drag_x`,
`_drag_y` (the cursor shape is presentation only). -/
structure BarState where
  sections : List Segment
  dragIdx : Option Nat
  dragSection : Option Segment
  dragOffset : ℚ
  dragX : Option ℚ
  dragY : Option ℚ
deriving DecidableEq

/-- `BarWidget.mouseMoveEvent` (main.py:677-709): while a drag is active
(`_drag_idx is not None and _drag_section is not None`) record the new
pointer position; otherwise only the hover cursor is updated, which
changes none of the modelled fields. -/
def mouseMoveEvent (st : BarState) (x y : ℚ) : BarState :=
  if st.dragIdx.isSome ∧ st.dragSection.isSome then
    { st with dragX := some x, dragY := some y }
  else st

/-! ## The tools merge (`TimePlannerApp._combine_tools_intelligently`,
main.py:1300-1349)

String primitives are modelled over `String.data : List Char` so that the
whole algorithm evaluates by kernel reduction:
`splitComma` is Python `str.split(',')`, `trimChars` is `str.strip()`
(for the ASCII whitespace the inputs contain), `parseQuantity` is the
match against `^(\d+)\s+(.+)$`. -/

/-- Python `str.split(',')`: split at every comma, keeping empty pieces. -/
def splitCommaAux : List Char → List Char → List (List Char)
  | [], acc => [acc.reverse]
  | c :: cs, acc =>
    if c = ',' then acc.reverse :: splitCommaAux cs []
    else splitCommaAux cs (c :: acc)

/-- Split a string on commas, Python `str.split(',')`. -/
def splitComma (s : String) : List String :=
  (splitCommaAux s.data []).map fun cs => ⟨cs⟩

/-- Python `str.strip()`: drop leading and trailing whitespace. -/
def trimChars (s : String) : String :=
  ⟨((s.data.dropWhile Char.isWhitespace).reverse.dropWhile Char.isWhitespace).reverse⟩

/-- Numeric value of a digit run, Python `int(match.group(1))`. -/
def digitsToNat (cs : List Char) : Nat :=
  cs.foldl (fun n c => 10 * n + (c.toNat - '0'.toNat)) 0

/-- The match of main.py:1313/1323 against `^(\d+)\s+(.+)$` on an entry
that has already been stripped: a maximal leading digit run, at least one
whitespace character, and a non-empty remainder (the name, then
`.strip()`-ed as in main.py:1327).  On stripped input the regex's
backtracking case (remainder entirely whitespace) cannot arise, so
maximal runs model it exactly. -/
def parseQuantity (t : String) : Option (Nat × String) :=
  let cs := t.data
  let ds := cs.takeWhile Char.isDigit
  let afterDigits := cs.dropWhile Char.isDigit
  let ws := afterDigits.takeWhile Char.isWhitespace
  let rest := afterDigits.dropWhile Char.isWhitespace
  if ds ≠ [] ∧ ws ≠ [] ∧ rest ≠ [] then
    some (digitsToNat ds, trimChars ⟨rest⟩)
  else none

/-- `tool_quantities.get(name, 0)` (main.py:1330). -/
def lookup0 : List (String × Nat) → String → Nat
  | [], _ => 0
  | (k, v) :: rest, n => if k = n then v else lookup0 rest n

/-- `name in tool_quantities` (main.py:1334). -/
def hasKey : List (String × Nat) → String → Bool
  | [], _ => false
  | (k, _) :: rest, n => k = n || hasKey rest n

/-- `tool_quantities[name] = v`: update in place, or append a new entry in
insertion order, as a Python dict does. -/
def setQty : List (String × Nat) → String → Nat → List (String × Nat)
  | [], n, v => [(n, v)]
  | (k, w) :: rest, n, v =>
    if k = n then (n, v) :: rest else (k, w) :: setQty rest n v

/-- One entry of a tools list (main.py:1322-1335): a quantified entry
records the maximum of the previous and new quantity
(`max(tool_quantities.get(tool_name, 0), quantity)`); an unquantified
entry registers the name with quantity `0` only when not yet tracked. -/
def processEntry (m : List (String × Nat)) (t : String) : List (String × Nat) :=
  match parseQuantity t with
  | some (q, name) => setQty m name (max (lookup0 m name) q)
  | none => if hasKey m t then m else m ++ [(t, 0)]

/-- `[tool.strip() for tool in tools.split(',') if tool.strip()]`
(main.py:1320). -/
def splitTools (s : String) : List String :=
  ((splitComma s).map trimChars).filter (fun t => t ≠ "")

/-- One section's contribution (main.py:1315-1335): a falsy (empty) tools
string is skipped, otherwise every entry is processed in order. -/
def processSection (m : List (String × Nat)) (s : Segment) : List (String × Nat) :=
  if s.tools = "" then m else (splitTools s.tools).foldl processEntry m

/-- Code-point lexicographic order on character lists: Python's `str <`. -/
def listCharLt : List Char → List Char → Bool
  | [], [] => false
  | [], _ :: _ => true
  | _ :: _, [] => false
  | a :: as, b :: bs =>
    if a.toNat < b.toNat then true
    else if b.toNat < a.toNat then false
    else listCharLt as bs

/-- Ordinal (code-point lexicographic) comparison of strings. -/
def strLt (a b : String) : Bool :=
  listCharLt a.data b.data

/-- Insert an entry into a key-sorted list of entries. -/
def insSorted (x : String × Nat) : List (String × Nat) → List (String × Nat)
  | [] => [x]
  | y :: rest => if strLt x.1 y.1 then x :: y :: rest else y :: insSorted x rest

/-- `sorted(tool_quantities.keys())` (main.py:1342): insertion sort of the
entries by tool name under the code-point lexicographic order (the keys
are pairwise distinct, so sorting entries equals sorting keys). -/
def sortEntries : List (String × Nat) → List (String × Nat)
  | [] => []
  | x :: rest => insSorted x (sortEntries rest)

/-- Decimal digits of `n`, most significant first, accumulated onto `acc`;
`fuel` bounds the recursion (any `fuel > n` suffices). -/
def natDigits : Nat → Nat → List Char → List Char
  | 0, _, acc => acc
  | fuel + 1, n, acc =>
    let d := Char.ofNat (48 + n % 10)
    if n < 10 then d :: acc
    else natDigits fuel (n / 10) (d :: acc)

/-- Python `str` of a non-negative integer, in decimal. -/
def natToStr (n : Nat) : String :=
  ⟨natDigits (n + 1) n []⟩

/-- main.py:1343-1347: `"<quantity> <name>"` when `quantity > 0`, else the
bare name (`0` is the code's "no quantity shown" marker). -/
def renderEntry (e : String × Nat) : String :=
  if 0 < e.2 then natToStr e.2 ++ " " ++ e.1 else e.1

/-- Models from the spec and main.py:1308 the sentinel `tr('docx_no_tools')`:
the translated "no tools" text (its exact wording lives in a language
file outside the verified core; no claim depends on it). -/
def docxNoTools : String :=
  "docx_no_tools"

/-- `TimePlannerApp._combine_tools_intelligently` (main.py:1300-1349). -/
def combineTools (sections : List Segment) : String :=
  if sections.isEmpty then docxNoTools
  else
    let m := sections.foldl processSection []
    if m.isEmpty then docxNoTools
    else String.intercalate ", " ((sortEntries m).map renderEntry)

/-! ## Lemmas: re-derivation and contiguity -/

theorem contiguousFrom_rederiveFrom (l : List Segment) :
    ∀ c, ContiguousFrom c (rederiveFrom c l) := by
  induction l with
  | nil => intro c; trivial
  | cons s rest ih =>
    intro c
    exact ⟨rfl, ih (c + s.duration)⟩

theorem rederiveFrom_eq_self {l : List Segment} :
    ∀ {c}, ContiguousFrom c l → rederiveFrom c l = l := by
  induction l with
  | nil => intro c _; rfl
  | cons s rest ih =>
    intro c h
    obtain ⟨hs, hrest⟩ := h
    subst hs
    cases s with
    | mk st du nm ts => simp only [rederiveFrom, ih hrest]

theorem map_keyOf_rederiveFrom (l : List Segment) :
    ∀ c, (rederiveFrom c l).map keyOf = l.map keyOf := by
  induction l with
  | nil => intro c; rfl
  | cons s rest ih =>
    intro c
    simp only [rederiveFrom, List.map_cons, ih]
    rfl

theorem sumDur_rederiveFrom (l : List Segment) :
    ∀ c, sumDur (rederiveFrom c l) = sumDur l := by
  induction l with
  | nil => intro c; rfl
  | cons s rest ih =>
    intro c
    simp only [rederiveFrom, sumDur, List.map_cons, List.sum_cons] at *
    rw [ih]

theorem length_rederiveFrom (l : List Segment) :
    ∀ c, (rederiveFrom c l).length = l.length := by
  induction l with
  | nil => intro c; rfl
  | cons s rest ih =>
    intro c
    simp only [rederiveFrom, List.length_cons, ih]

theorem contiguousFrom_append_one {l : List Segment} {c : Nat}
    (h : ContiguousFrom c l) (d : Nat) (nm ts : String) :
    ContiguousFrom c (l ++ [⟨c + sumDur l, d, nm, ts⟩]) := by
  induction l generalizing c with
  | nil =>
    refine ⟨?_, trivial⟩
    simp [sumDur]
  | cons s rest ih =>
    obtain ⟨hs, hrest⟩ := h
    refine ⟨hs, ?_⟩
    have harith : c + sumDur (s :: rest) = (s.start + s.duration) + sumDur rest := by
      simp only [sumDur, List.map_cons, List.sum_cons]
      omega
    show ContiguousFrom (s.start + s.duration)
      (rest ++ [⟨c + sumDur (s :: rest), d, nm, ts⟩])
    rw [harith]
    exact ih hrest

theorem appendStart_of_contiguous {l : List Segment} :
    ∀ {c}, ContiguousFrom c l → l ≠ [] → appendStart l = c + sumDur l := by
  induction l with
  | nil => intro c _ hne; cases hne rfl
  | cons s rest ih =>
    intro c h _
    obtain ⟨hs, hrest⟩ := h
    cases rest with
    | nil =>
      have h1 : appendStart [s] = s.start + s.duration := rfl
      rw [h1]
      simp only [sumDur, List.map_cons, List.map_nil, List.sum_cons, List.sum_nil]
      omega
    | cons t rs =>
      have hthis := ih hrest (by simp)
      have hlast : appendStart (s :: t :: rs) = appendStart (t :: rs) := by
        simp [appendStart, List.getLast?_cons_cons]
      rw [hlast, hthis]
      simp only [sumDur, List.map_cons, List.sum_cons]
      omega

theorem contiguousFrom_head {l : List Segment} {c : Nat}
    (h : ContiguousFrom c l) : ∀ s, l.head? = some s → s.start = c := by
  cases l with
  | nil => intro s hs; cases hs
  | cons t rest =>
    intro s hs
    cases hs
    exact h.1

theorem contiguousFrom_get {l : List Segment} :
    ∀ {c}, ContiguousFrom c l → ∀ i a b, l.get? i = some a →
      l.get? (i + 1) = some b → b.start = a.start + a.duration := by
  induction l with
  | nil => intro c _ i a b ha _; cases ha
  | cons s rest ih =>
    intro c h i a b ha hb
    obtain ⟨hs, hrest⟩ := h
    cases i with
    | zero =>
      cases ha
      cases rest with
      | nil => cases hb
      | cons t rs =>
        cases hb
        exact hrest.1
    | succ n =>
      exact ih hrest n a b ha hb

theorem contiguousSpec_of_contiguousFrom {l : List Segment}
    (h : ContiguousFrom 0 l) : ContiguousSpec l :=
  ⟨contiguousFrom_head h, contiguousFrom_get h⟩

/-! ## Lemmas: sums under erase / insert / update / move -/

theorem sumDur_eraseAt {l : List Segment} :
    ∀ {i a}, l.get? i = some a → sumDur l = a.duration + sumDur (eraseAt i l) := by
  induction l with
  | nil => intro i a ha; cases ha
  | cons s rest ih =>
    intro i a ha
    cases i with
    | zero =>
      cases ha
      simp [sumDur, eraseAt]
    | succ n =>
      have := ih ha
      simp only [sumDur, eraseAt, List.map_cons, List.sum_cons] at *
      omega

theorem sumDur_insertAt (a : Segment) :
    ∀ (n : Nat) (l : List Segment), sumDur (insertAt n a l) = a.duration + sumDur l := by
  intro n
  induction n with
  | zero => intro l; simp [insertAt, sumDur]
  | succ m ih =>
    intro l
    cases l with
    | nil => simp [insertAt, sumDur]
    | cons s rest =>
      have := ih rest
      simp only [insertAt, sumDur, List.map_cons, List.sum_cons] at *
      omega

theorem length_insertAt (a : Segment) :
    ∀ (n : Nat) (l : List Segment), (insertAt n a l).length = l.length + 1 := by
  intro n
  induction n with
  | zero => intro l; simp [insertAt]
  | succ m ih =>
    intro l
    cases l with
    | nil => simp [insertAt]
    | cons s rest => simp [insertAt, ih rest]

theorem length_eraseAt {l : List Segment} :
    ∀ {i}, i < l.length → (eraseAt i l).length + 1 = l.length := by
  induction l with
  | nil => intro i hi; cases hi
  | cons s rest ih =>
    intro i hi
    cases i with
    | zero => simp [eraseAt]
    | succ n =>
      have : n < rest.length := by simpa using hi
      simp only [eraseAt, List.length_cons]
      rw [← ih this]

theorem sumDur_applyMove {l : List Segment} {i : Nat} (n : Nat) (hi : i < l.length) :
    sumDur (applyMove l i n) = sumDur l := by
  unfold applyMove
  by_cases hn : n = i
  · simp [hn]
  · rw [if_neg hn]
    cases hget : l.get? i with
    | none =>
      exfalso
      rw [List.get?_eq_none] at hget
      omega
    | some seg =>
      rw [sumDur_insertAt, ← sumDur_eraseAt hget]

theorem sumDur_mouseRelease {l : List Segment} {i : Nat} (hi : i < l.length)
    (relX T bw : ℚ) : sumDur (mouseRelease l i relX T bw) = sumDur l := by
  unfold mouseRelease rederive
  rw [sumDur_rederiveFrom, sumDur_applyMove _ hi]

theorem sumDur_updateAt {l : List Segment} (nm ts : String) (d : Nat) :
    ∀ {i}, i < l.length →
      sumDur (updateAt i (fun s => { s with name := nm, duration := d, tools := ts }) l)
        = sumDur (eraseAt i l) + d := by
  induction l with
  | nil => intro i hi; cases hi
  | cons s rest ih =>
    intro i hi
    cases i with
    | zero => simp [updateAt, eraseAt, sumDur]; omega
    | succ n =>
      have hn : n < rest.length := by simpa using hi
      have := ih hn
      simp only [updateAt, eraseAt, sumDur, List.map_cons, List.sum_cons] at *
      omega

/-! ## Lemmas: the invariants are preserved by every mutation -/

theorem inv_initTimeline (total : Nat) : Inv (initTimeline total) :=
  ⟨trivial, by simp [initTimeline, sumDur]⟩

theorem inv_addSection {tl : Timeline} (h : Inv tl) (nm ts : String) (d : Nat) :
    Inv (addSection tl nm ts d) := by
  obtain ⟨hc, hs⟩ := h
  unfold addSection
  by_cases h0 : tl.totalMinutes - appendStart tl.sections = 0
  · simpa [h0] using ⟨hc, hs⟩
  · rw [if_neg h0]
    by_cases hok : 1 ≤ d ∧ d ≤ tl.totalMinutes - appendStart tl.sections ∧ nm ≠ ""
    · rw [if_pos hok]
      have hstart : appendStart tl.sections = sumDur tl.sections := by
        by_cases hnil : tl.sections = []
        · rw [hnil]; rfl
        · have h2 := appendStart_of_contiguous hc hnil
          omega
      constructor
      · have := contiguousFrom_append_one hc d nm ts
        simpa [sumDur, hstart] using this
      · show sumDur (tl.sections ++ [⟨appendStart tl.sections, d, nm, ts⟩])
          ≤ tl.totalMinutes
        have hsum : sumDur (tl.sections ++ [⟨appendStart tl.sections, d, nm, ts⟩])
            = sumDur tl.sections + d := by
          simp [sumDur]
        rw [hsum]
        omega
    · simpa [hok] using ⟨hc, hs⟩

theorem inv_dragReleaseTl {tl : Timeline} (h : Inv tl) (i : Nat) (relX bw : ℚ) :
    Inv (dragReleaseTl tl i relX bw) := by
  obtain ⟨hc, hs⟩ := h
  unfold dragReleaseTl
  by_cases hi : i < tl.sections.length
  · rw [if_pos hi]
    exact ⟨contiguousFrom_rederiveFrom _ 0, by rw [sumDur_mouseRelease hi]; exact hs⟩
  · simpa [hi] using ⟨hc, hs⟩

theorem inv_editSection {tl : Timeline} (h : Inv tl) (i : Nat) (nm ts : String) (d : Nat) :
    Inv (editSection tl i nm ts d) := by
  obtain ⟨hc, hs⟩ := h
  unfold editSection
  by_cases hi : i < tl.sections.length
  · rw [if_pos hi]
    by_cases hok : 1 ≤ d ∧ d ≤ tl.totalMinutes - sumDur (eraseAt i tl.sections) ∧ nm ≠ ""
    · rw [if_pos hok]
      refine ⟨contiguousFrom_rederiveFrom _ 0, ?_⟩
      show sumDur (rederive (updateAt i
        (fun s => { s with name := nm, duration := d, tools := ts }) tl.sections))
        ≤ tl.totalMinutes
      unfold rederive
      rw [sumDur_rederiveFrom, sumDur_updateAt nm ts d hi]
      omega
    · simpa [hok] using ⟨hc, hs⟩
  · simpa [hi] using ⟨hc, hs⟩

theorem inv_deleteSection {tl : Timeline} (h : Inv tl) (i : Nat) :
    Inv (deleteSection tl i) := by
  obtain ⟨hc, hs⟩ := h
  unfold deleteSection
  by_cases hi : i < tl.sections.length
  · rw [if_pos hi]
    refine ⟨contiguousFrom_rederiveFrom _ 0, ?_⟩
    show sumDur (rederive (eraseAt i tl.sections)) ≤ tl.totalMinutes
    unfold rederive
    rw [sumDur_rederiveFrom]
    cases hget : tl.sections.get? i with
    | none =>
      exfalso
      rw [List.get?_eq_none] at hget
      omega
    | some a =>
      have := sumDur_eraseAt hget
      omega
  · simpa [hi] using ⟨hc, hs⟩

theorem inv_applyMutation {tl : Timeline} (h : Inv tl) (m : Mutation) :
    Inv (applyMutation tl m) := by
  cases m with
  | append nm ts d => exact inv_addSection h nm ts d
  | dragRelease i relX bw => exact inv_dragReleaseTl h i relX bw
  | edit i nm ts d => exact inv_editSection h i nm ts d
  | delete i => exact inv_deleteSection h i

theorem inv_runMutations {tl : Timeline} (h : Inv tl) (ops : List Mutation) :
    Inv (runMutations tl ops) := by
  induction ops generalizing tl with
  | nil => exact h
  | cons m rest ih => exact ih (inv_applyMutation h m)

/-! ## Lemmas: the release walk -/

theorem resolveGo_eq_none (T bw relX : ℚ) (dragIdx : Nat) :
    ∀ (rest : List Segment) (start : Nat) (tot : ℚ),
      (∀ j (hj : j < rest.length), start + j ≠ dragIdx →
        tot + walkTotalAux T bw dragIdx start rest j
          + segWidth T bw (rest.get ⟨j, hj⟩) / 2 ≤ relX) →
      resolveGo T bw relX dragIdx start tot rest = none := by
  intro rest
  induction rest with
  | nil => intro start tot _; rfl
  | cons s rl ih =>
    intro start tot H
    unfold resolveGo
    by_cases hidx : start = dragIdx
    · rw [if_pos hidx]
      apply ih
      intro j hj hne
      have hH := H (j + 1) (by simpa using Nat.succ_lt_succ hj) (by omega)
      simp only [walkTotalAux, if_pos hidx, List.get_cons_succ] at hH
      linarith
    · rw [if_neg hidx]
      have h0 := H 0 (by simp) (by simpa using hidx)
      simp only [walkTotalAux, List.get] at h0
      rw [if_neg (not_lt.mpr (by linarith))]
      apply ih
      intro j hj hne
      have hH := H (j + 1) (by simpa using Nat.succ_lt_succ hj) (by omega)
      simp only [walkTotalAux, if_neg hidx, List.get_cons_succ] at hH
      linarith

theorem resolveGo_some_bounds (T bw relX : ℚ) (dragIdx : Nat) :
    ∀ (rest : List Segment) (start : Nat) (tot : ℚ) (j : Nat),
      resolveGo T bw relX dragIdx start tot rest = some j →
      start ≤ j ∧ j ≠ dragIdx := by
  intro rest
  induction rest with
  | nil => intro start tot j h; cases h
  | cons s rl ih =>
    intro start tot j h
    unfold resolveGo at h
    by_cases hidx : start = dragIdx
    · rw [if_pos hidx] at h
      have := ih (start + 1) tot j h
      exact ⟨by omega, this.2⟩
    · rw [if_neg hidx] at h
      by_cases hlt : relX < tot + segWidth T bw s / 2
      · rw [if_pos hlt] at h
        cases h
        exact ⟨Nat.le_refl _, hidx⟩
      · rw [if_neg hlt] at h
        have := ih (start + 1) _ j h
        exact ⟨by omega, this.2⟩

theorem insertAt_of_length_le (a : Segment) :
    ∀ (l : List Segment) (n : Nat), l.length ≤ n → insertAt n a l = l ++ [a] := by
  intro l
  induction l with
  | nil =>
    intro n _
    cases n with
    | zero => rfl
    | succ m => rfl
  | cons s rest ih =>
    intro n hn
    cases n with
    | zero => simp at hn
    | succ m =>
      have : rest.length ≤ m := by simpa using hn
      simp only [insertAt, List.cons_append, ih m this]

theorem head_key_rederive (l : List Segment) :
    (rederive l).head?.map keyOf = l.head?.map keyOf := by
  rw [← List.head?_map, ← List.head?_map]
  unfold rederive
  rw [map_keyOf_rederiveFrom]

theorem getLast_key_rederive (l : List Segment) :
    (rederive l).getLast?.map keyOf = l.getLast?.map keyOf := by
  rw [← List.getLast?_map, ← List.getLast?_map]
  unfold rederive
  rw [map_keyOf_rederiveFrom]

theorem totalMinutes_applyMutation (tl : Timeline) (m : Mutation) :
    (applyMutation tl m).totalMinutes = tl.totalMinutes := by
  cases m with
  | append nm ts d =>
    show (addSection tl nm ts d).totalMinutes = tl.totalMinutes
    unfold addSection
    by_cases h0 : tl.totalMinutes - appendStart tl.sections = 0
    · rw [if_pos h0]
    · rw [if_neg h0]
      by_cases hok : 1 ≤ d ∧ d ≤ tl.totalMinutes - appendStart tl.sections ∧ nm ≠ ""
      · rw [if_pos hok]
      · rw [if_neg hok]
  | dragRelease i relX bw =>
    show (dragReleaseTl tl i relX bw).totalMinutes = tl.totalMinutes
    unfold dragReleaseTl
    split <;> rfl
  | edit i nm ts d =>
    show (editSection tl i nm ts d).totalMinutes = tl.totalMinutes
    unfold editSection
    by_cases hi : i < tl.sections.length
    · rw [if_pos hi]
      by_cases hok : 1 ≤ d ∧ d ≤ tl.totalMinutes - sumDur (eraseAt i tl.sections) ∧ nm ≠ ""
      · rw [if_pos hok]
      · rw [if_neg hok]
    · rw [if_neg hi]
  | delete i =>
    show (deleteSection tl i).totalMinutes = tl.totalMinutes
    unfold deleteSection
    split <;> rfl

theorem totalMinutes_runMutations (tl : Timeline) (ops : List Mutation) :
    (runMutations tl ops).totalMinutes = tl.totalMinutes := by
  induction ops generalizing tl with
  | nil => rfl
  | cons m rest ih =>
    show (runMutations (applyMutation tl m) rest).totalMinutes = _
    rw [ih, totalMinutes_applyMutation]

theorem sections_mouseMoveEvent (st : BarState) (x y : ℚ) :
    (mouseMoveEvent st x y).sections = st.sections := by
  unfold mouseMoveEvent
  split <;> rfl

/-! ## The claims -/

/-- C2: starting from an empty Timeline, after every sequence of valid
mutations (append, reorder-by-drag, edit, delete) the sections satisfy
`segments[0].start == 0` and
`segments[i+1].start == segments[i].start + segments[i].duration`. -/
theorem contiguity_invariant (total : Nat) (ops : List Mutation) :
    ContiguousSpec (runMutations (initTimeline total) ops).sections :=
  contiguousSpec_of_contiguousFrom (inv_runMutations (inv_initTimeline total) ops).1

/-- C3: on every state reachable from an empty Timeline the sum of the
durations never exceeds the total; an append or edit whose duration would
exceed the remaining capacity is rejected and leaves the Timeline exactly
as it was. -/
theorem capacity_invariant (total : Nat) (ops : List Mutation)
    (nm ts : String) (d idx : Nat)
    (hexA : total < sumDur (runMutations (initTimeline total) ops).sections + d)
    (hexE : total <
      sumDur (eraseAt idx (runMutations (initTimeline total) ops).sections) + d) :
    sumDur (runMutations (initTimeline total) ops).sections ≤ total
    ∧ applyMutation (runMutations (initTimeline total) ops) (.append nm ts d)
        = runMutations (initTimeline total) ops
    ∧ applyMutation (runMutations (initTimeline total) ops) (.edit idx nm ts d)
        = runMutations (initTimeline total) ops := by
  have hInv := inv_runMutations (inv_initTimeline total) ops
  have hTm : (runMutations (initTimeline total) ops).totalMinutes = total := by
    rw [totalMinutes_runMutations]; rfl
  obtain ⟨hc, hs⟩ := hInv
  rw [hTm] at hs
  refine ⟨hs, ?_, ?_⟩
  · show addSection _ nm ts d = _
    unfold addSection
    have hstart : appendStart (runMutations (initTimeline total) ops).sections
        = sumDur (runMutations (initTimeline total) ops).sections := by
      by_cases hnil : (runMutations (initTimeline total) ops).sections = []
      · rw [hnil]; rfl
      · have h2 := appendStart_of_contiguous hc hnil
        omega
    by_cases h0 : (runMutations (initTimeline total) ops).totalMinutes
        - appendStart (runMutations (initTimeline total) ops).sections = 0
    · rw [if_pos h0]
    · rw [if_neg h0, if_neg]
      intro hok
      rw [hstart, hTm] at hok
      omega
  · show editSection _ idx nm ts d = _
    unfold editSection
    by_cases hi : idx < (runMutations (initTimeline total) ops).sections.length
    · rw [if_pos hi, if_neg]
      intro hok
      rw [hTm] at hok
      omega
    · rw [if_neg hi]

/-- C4: the tools merge of `"3 cones, 1 goal"`, `"6 cones"`,
`"12 cones, 2 bibs"` is exactly `"2 bibs, 12 cones, 1 goal"` —
per-name maximum, sorted by name, joined with `", "`. -/
theorem tools_merge_example :
    combineTools [⟨0, 10, "S1", "3 cones, 1 goal"⟩, ⟨10, 10, "S2", "6 cones"⟩,
      ⟨20, 10, "S3", "12 cones, 2 bibs"⟩] = "2 bibs, 12 cones, 1 goal" := by
  decide

/-- C5 (counterexample): the code's "no quantity" marker is the quantity
`0` itself (main.py:1335), so the entry `"0 cones"` is rendered bare as
`"cones"`, not as `"0 cones"`, and is indistinguishable from an
unquantified `"cones"`. -/
theorem tools_merge_zero_counterexample :
    combineTools [⟨0, 10, "S", "0 cones"⟩] = "cones"
    ∧ combineTools [⟨0, 10, "S", "0 cones"⟩] ≠ "0 cones"
    ∧ combineTools [⟨0, 10, "S", "0 cones"⟩]
        = combineTools [⟨0, 10, "S", "cones"⟩] := by
  decide

/-- C5 (amended): an entry without a quantity prefix registers its name
with the marker quantity `0`, the very value an explicit `"0 cones"`
records; both are rendered bare as `"cones"`, so the two are
indistinguishable. -/
theorem tools_merge_zero_amended :
    processEntry [] "cones" = [("cones", 0)]
    ∧ processEntry [] "0 cones" = [("cones", 0)]
    ∧ combineTools [⟨0, 10, "S", "0 cones"⟩] = "cones"
    ∧ combineTools [⟨0, 10, "S", "cones"⟩] = "cones" := by
  decide

/-- C7: merging `"cones"` and `"5 cones"` yields `"5 cones"` in either
order of occurrence, across segments or within one segment's list. -/
theorem tools_merge_mixed_order :
    combineTools [⟨0, 10, "S1", "cones"⟩, ⟨10, 10, "S2", "5 cones"⟩] = "5 cones"
    ∧ combineTools [⟨0, 10, "S1", "5 cones"⟩, ⟨10, 10, "S2", "cones"⟩] = "5 cones"
    ∧ combineTools [⟨0, 10, "S", "cones, 5 cones"⟩] = "5 cones"
    ∧ combineTools [⟨0, 10, "S", "5 cones, cones"⟩] = "5 cones" := by
  decide

/-- C9: a pointer-move event changes none of the section list, the dragged
index, the dragged segment or the grab offset — only the tracked pointer
position — and any sequence of move events leaves the section list
exactly as it was. -/
theorem mouseMove_frame (st : BarState) (x y : ℚ) (moves : List (ℚ × ℚ)) :
    (mouseMoveEvent st x y).sections = st.sections
    ∧ (mouseMoveEvent st x y).dragIdx = st.dragIdx
    ∧ (mouseMoveEvent st x y).dragSection = st.dragSection
    ∧ (mouseMoveEvent st x y).dragOffset = st.dragOffset
    ∧ (moves.foldl (fun s p => mouseMoveEvent s p.1 p.2) st).sections = st.sections := by
  refine ⟨sections_mouseMoveEvent st x y, ?_, ?_, ?_, ?_⟩
  · unfold mouseMoveEvent; split <;> rfl
  · unfold mouseMoveEvent; split <;> rfl
  · unfold mouseMoveEvent; split <;> rfl
  · induction moves generalizing st with
    | nil => rfl
    | cons p rest ih =>
      show (rest.foldl _ (mouseMoveEvent st p.1 p.2)).sections = st.sections
      rw [ih (mouseMoveEvent st p.1 p.2), sections_mouseMoveEvent]

/-- C8: when the release resolves to the dragged segment's own index the
release leaves the sequence entirely unchanged — the re-derivation pass
still runs but reproduces the pre-drag starts, given contiguity held
before the drag. -/
theorem reorder_idempotent {l : List Segment} {dragIdx : Nat} {relX T bw : ℚ}
    (hres : resolveNewPos l dragIdx relX T bw = dragIdx)
    (hc : ContiguousFrom 0 l) :
    mouseRelease l dragIdx relX T bw = l := by
  unfold mouseRelease
  rw [hres]
  unfold applyMove
  rw [if_pos rfl]
  exact rederiveFrom_eq_self hc

/-- Witness for C8: a one-segment timeline where any release resolves to
the dragged index `0` and the release is the identity. -/
theorem reorder_idempotent_witness :
    resolveNewPos [⟨0, 10, "A", ""⟩] 0 0 100 400 = 0
    ∧ ContiguousFrom 0 [⟨0, 10, "A", ""⟩]
    ∧ mouseRelease [⟨0, 10, "A", ""⟩] 0 0 100 400 = [⟨0, 10, "A", ""⟩] :=
  ⟨rfl, by decide, reorder_idempotent rfl (by decide)⟩

/-- C6: when the release point is at or past every non-dragged segment's
midpoint threshold (`running_total_before_i + width_of_i/2 ≤ rel_x` for
every non-dragged `i`), the walk finds no position and the dragged
segment ends up as the last element of the sequence. -/
theorem drag_fallback_last {l : List Segment} {dragIdx : Nat} {relX T bw : ℚ}
    (hidx : dragIdx < l.length)
    (H : ∀ i (hi : i < l.length), i ≠ dragIdx →
      walkTotal T bw dragIdx l i + segWidth T bw (l.get ⟨i, hi⟩) / 2 ≤ relX) :
    (mouseRelease l dragIdx relX T bw).getLast?.map keyOf
      = (l.get? dragIdx).map keyOf := by
  have hnone : resolveGo T bw relX dragIdx 0 0 l = none := by
    refine resolveGo_eq_none T bw relX dragIdx l 0 0 ?_
    intro j hj hne
    have := H j hj (by omega)
    simpa [walkTotal] using this
  have hres : resolveNewPos l dragIdx relX T bw = l.length - 1 := by
    unfold resolveNewPos
    rw [hnone]
  unfold mouseRelease
  rw [hres]
  by_cases heq : l.length - 1 = dragIdx
  · unfold applyMove
    rw [if_pos heq]
    rw [getLast_key_rederive]
    have hlast : l.getLast? = l.get? (l.length - 1) := by
      rw [List.getLast?_eq_getElem?, List.get?_eq_getElem?]
    rw [hlast, heq]
  · unfold applyMove
    rw [if_neg heq]
    cases hget : l.get? dragIdx with
    | none =>
      exfalso
      rw [List.get?_eq_none] at hget
      omega
    | some seg =>
      have hlen : (eraseAt dragIdx l).length ≤ l.length - 1 := by
        have := length_eraseAt hidx
        omega
      show (rederive (insertAt (l.length - 1) seg (eraseAt dragIdx l))).getLast?.map keyOf
        = (some seg).map keyOf
      rw [insertAt_of_length_le seg _ _ hlen, getLast_key_rederive,
        List.getLast?_concat]

/-- Witness for C6: dragging the first of two segments and releasing far
to the right (`rel_x = 1000`) leaves the dragged segment last. -/
theorem drag_fallback_last_witness :
    ((0 : Nat) < ([⟨0, 10, "A", ""⟩, ⟨10, 20, "B", ""⟩] : List Segment).length)
    ∧ (mouseRelease [⟨0, 10, "A", ""⟩, ⟨10, 20, "B", ""⟩] 0 1000 100 400).getLast?.map keyOf
        = (([⟨0, 10, "A", ""⟩, ⟨10, 20, "B", ""⟩] : List Segment).get? 0).map keyOf := by
  refine ⟨by decide, drag_fallback_last (by decide) ?_⟩
  intro i hi hne
  have hi2 : i < 2 := by simpa using hi
  interval_cases i
  · exact absurd rfl hne
  · norm_num [walkTotal, walkTotalAux, segWidth, List.get]

/-- C10: with at least two segments, a drag of the first segment always
resolves to an insertion index of at least 1 — every walk candidate keeps
its original sequence index and the fallback is the last index — so after
the release the head of the sequence is the old second segment, never the
dragged one, whatever the release coordinate. -/
theorem drag_first_never_stays {l : List Segment} {relX T bw : ℚ}
    (h2 : 2 ≤ l.length) :
    1 ≤ resolveNewPos l 0 relX T bw
    ∧ (mouseRelease l 0 relX T bw).head?.map keyOf = (l.get? 1).map keyOf := by
  have h1 : 1 ≤ resolveNewPos l 0 relX T bw := by
    unfold resolveNewPos
    cases hgo : resolveGo T bw relX 0 0 0 l with
    | some j =>
      show 1 ≤ j
      have := (resolveGo_some_bounds T bw relX 0 l 0 0 j hgo).2
      omega
    | none =>
      show 1 ≤ l.length - 1
      omega
  refine ⟨h1, ?_⟩
  rcases l with _ | ⟨s₀, _ | ⟨s₁, lr⟩⟩
  · simp at h2
  · simp at h2
  · obtain ⟨m, hm⟩ : ∃ m, resolveNewPos (s₀ :: s₁ :: lr) 0 relX T bw = m + 1 :=
      ⟨resolveNewPos (s₀ :: s₁ :: lr) 0 relX T bw - 1, by omega⟩
    unfold mouseRelease
    rw [hm]
    unfold applyMove
    rw [if_neg (by omega : ¬ m + 1 = 0)]
    show (rederive (insertAt (m + 1) s₀ (eraseAt 0 (s₀ :: s₁ :: lr)))).head?.map keyOf
      = ((s₀ :: s₁ :: lr).get? 1).map keyOf
    rw [head_key_rederive]
    rfl

/-- Witness for C10: dragging the first of two segments and releasing at
the far left still resolves to index 1 and puts the old second segment
first. -/
theorem drag_first_never_stays_witness :
    (2 ≤ ([⟨0, 10, "A", ""⟩, ⟨10, 20, "B", ""⟩] : List Segment).length)
    ∧ 1 ≤ resolveNewPos [⟨0, 10, "A", ""⟩, ⟨10, 20, "B", ""⟩] 0 0 100 400
    ∧ (mouseRelease [⟨0, 10, "A", ""⟩, ⟨10, 20, "B", ""⟩] 0 0 100 400).head?.map keyOf
        = (([⟨0, 10, "A", ""⟩, ⟨10, 20, "B", ""⟩] : List Segment).get? 1).map keyOf :=
  ⟨by decide, (drag_first_never_stays (by decide)).1, (drag_first_never_stays (by decide)).2⟩

/-- C1 (counterexample): on the spec's own example — A(10), B(20), C(15),
total 100, bar width 400 — the release point `rel_x = 60` lies past B's
midpoint threshold in the walk (40) and before C's walk start (80), yet
the release produces order [B, C, A] with starts [0, 20, 35], not
[B, A, C] with [0, 20, 30]. -/
theorem reorder_example_counterexample :
    walkTotal 100 400 0 [⟨0, 10, "A", ""⟩, ⟨10, 20, "B", ""⟩, ⟨30, 15, "C", ""⟩] 1
        + segWidth 100 400 ⟨10, 20, "B", ""⟩ / 2 ≤ 60
    ∧ (60 : ℚ) < walkTotal 100 400 0
        [⟨0, 10, "A", ""⟩, ⟨10, 20, "B", ""⟩, ⟨30, 15, "C", ""⟩] 2
    ∧ (mouseRelease [⟨0, 10, "A", ""⟩, ⟨10, 20, "B", ""⟩, ⟨30, 15, "C", ""⟩]
        0 60 100 400).map Segment.name = ["B", "C", "A"]
    ∧ (mouseRelease [⟨0, 10, "A", ""⟩, ⟨10, 20, "B", ""⟩, ⟨30, 15, "C", ""⟩]
        0 60 100 400).map Segment.name ≠ ["B", "A", "C"]
    ∧ (mouseRelease [⟨0, 10, "A", ""⟩, ⟨10, 20, "B", ""⟩, ⟨30, 15, "C", ""⟩]
        0 60 100 400).map Segment.start = [0, 20, 35] := by
  have h3 : (mouseRelease [⟨0, 10, "A", ""⟩, ⟨10, 20, "B", ""⟩, ⟨30, 15, "C", ""⟩]
      0 60 100 400).map Segment.name = ["B", "C", "A"] := by
    norm_num [mouseRelease, resolveNewPos, resolveGo, segWidth, applyMove,
      eraseAt, insertAt, rederive, rederiveFrom]
  refine ⟨?_, ?_, h3, ?_, ?_⟩
  · norm_num [walkTotal, walkTotalAux, segWidth]
  · norm_num [walkTotal, walkTotalAux, segWidth]
  · rw [h3]
    decide
  · norm_num [mouseRelease, resolveNewPos, resolveGo, segWidth, applyMove,
      eraseAt, insertAt, rederive, rederiveFrom]

/-- C1 (amended): on the example timeline A(10), B(20), C(15), total 100,
a release whose `rel_x` lies at or past B's midpoint threshold in the
walk and before C's start in the walk produces order [B, C, A] with
re-derived starts [0, 20, 35]. -/
theorem reorder_example_amended {relX bw : ℚ} (hbw : 0 < bw)
    (hpast : walkTotal 100 bw 0 [⟨0, 10, "A", ""⟩, ⟨10, 20, "B", ""⟩, ⟨30, 15, "C", ""⟩] 1
      + segWidth 100 bw ⟨10, 20, "B", ""⟩ / 2 ≤ relX)
    (hbefore : relX < walkTotal 100 bw 0
      [⟨0, 10, "A", ""⟩, ⟨10, 20, "B", ""⟩, ⟨30, 15, "C", ""⟩] 2) :
    (mouseRelease [⟨0, 10, "A", ""⟩, ⟨10, 20, "B", ""⟩, ⟨30, 15, "C", ""⟩]
        0 relX 100 bw).map Segment.name = ["B", "C", "A"]
    ∧ (mouseRelease [⟨0, 10, "A", ""⟩, ⟨10, 20, "B", ""⟩, ⟨30, 15, "C", ""⟩]
        0 relX 100 bw).map Segment.start = [0, 20, 35] := by
  have hw1 : walkTotal 100 bw 0
      [⟨0, 10, "A", ""⟩, ⟨10, 20, "B", ""⟩, ⟨30, 15, "C", ""⟩] 1 = 0 := by
    norm_num [walkTotal, walkTotalAux]
  have hw2 : walkTotal 100 bw 0
      [⟨0, 10, "A", ""⟩, ⟨10, 20, "B", ""⟩, ⟨30, 15, "C", ""⟩] 2
      = segWidth 100 bw ⟨10, 20, "B", ""⟩ := by
    norm_num [walkTotal, walkTotalAux]
  rw [hw1] at hpast
  rw [hw2] at hbefore
  have hCpos : 0 ≤ segWidth 100 bw ⟨30, 15, "C", ""⟩ / 2 := by
    unfold segWidth
    have : (0 : ℚ) ≤ ((15 : Nat) : ℚ) / 100 := by norm_num
    have := mul_nonneg this (le_of_lt hbw)
    linarith
  have h1 : ¬ (relX < segWidth 100 bw ⟨10, 20, "B", ""⟩ / 2) := by
    push_neg
    linarith
  have h2 : relX < segWidth 100 bw ⟨10, 20, "B", ""⟩
      + segWidth 100 bw ⟨30, 15, "C", ""⟩ / 2 := by
    linarith
  have hres : resolveNewPos [⟨0, 10, "A", ""⟩, ⟨10, 20, "B", ""⟩, ⟨30, 15, "C", ""⟩]
      0 relX 100 bw = 2 := by
    unfold resolveNewPos
    norm_num [resolveGo, h1, h2]
  refine ⟨?_, ?_⟩ <;>
    · unfold mouseRelease
      rw [hres]
      decide

/-- Witness for C3: after filling a 10-minute timeline with one
10-minute section, appending or editing to duration 11 exceeds capacity
and both are rejected unchanged. -/
theorem capacity_invariant_witness :
    (10 < sumDur (runMutations (initTimeline 10) [.append "A" "" 10]).sections + 11)
    ∧ (10 < sumDur (eraseAt 0
        (runMutations (initTimeline 10) [.append "A" "" 10]).sections) + 11)
    ∧ sumDur (runMutations (initTimeline 10) [.append "A" "" 10]).sections ≤ 10
    ∧ applyMutation (runMutations (initTimeline 10) [.append "A" "" 10])
        (.append "B" "" 11) = runMutations (initTimeline 10) [.append "A" "" 10]
    ∧ applyMutation (runMutations (initTimeline 10) [.append "A" "" 10])
        (.edit 0 "B" "" 11) = runMutations (initTimeline 10) [.append "A" "" 10] := by
  have h := capacity_invariant 10 [.append "A" "" 10] "B" "" 11 0 (by decide) (by decide)
  exact ⟨by decide, by decide, h.1, h.2.1, h.2.2⟩

/-- Witness for C1 (amended): `rel_x = 60` with bar width 400 lies in the
stated region and yields [B, C, A] with starts [0, 20, 35]. -/
theorem reorder_example_amended_witness :
    ((0 : ℚ) < 400)
    ∧ (walkTotal 100 400 0 [⟨0, 10, "A", ""⟩, ⟨10, 20, "B", ""⟩, ⟨30, 15, "C", ""⟩] 1
        + segWidth 100 400 ⟨10, 20, "B", ""⟩ / 2 ≤ 60)
    ∧ ((60 : ℚ) < walkTotal 100 400 0
        [⟨0, 10, "A", ""⟩, ⟨10, 20, "B", ""⟩, ⟨30, 15, "C", ""⟩] 2)
    ∧ (mouseRelease [⟨0, 10, "A", ""⟩, ⟨10, 20, "B", ""⟩, ⟨30, 15, "C", ""⟩]
        0 60 100 400).map Segment.name = ["B", "C", "A"]
    ∧ (mouseRelease [⟨0, 10, "A", ""⟩, ⟨10, 20, "B", ""⟩, ⟨30, 15, "C", ""⟩]
        0 60 100 400).map Segment.start = [0, 20, 35] := by
  have h := @reorder_example_amended 60 400 (by norm_num)
    (by norm_num [walkTotal, walkTotalAux, segWidth])
    (by norm_num [walkTotal, walkTotalAux, segWidth])
  exact ⟨by norm_num, by norm_num [walkTotal, walkTotalAux, segWidth],
    by norm_num [walkTotal, walkTotalAux, segWidth], h.1, h.2⟩

end TimePlanner
